import Mathlib

/-!
Shallow embedding of spacy_llm/pipeline/llm.py: the LLMWrapper pipeline
component.  Docs, the cache gateway, the task and the backend are modelled
as pure data and functions; a raised exception is modelled as Option.none.
Lazy iterators (generate_prompts, the backend response stream, the tee
duplicates) are modelled as lists consumed in order, which is faithful
because a batch is finite and every sequence is consumed single-pass, in
lockstep, within one batch.
-/

namespace SpacyLLM

/-- A captured prompt/response pair as stored in user_data under the
"llm_io" key (one dict per owning component). -/
structure ExchangeRecord where
  prompt : String
  response : String
deriving DecidableEq, Repr

/-- A spaCy Doc reduced to what the wrapper observes: a stable identity
that serves as the cache key, the text, the task annotation slot, and the
user_data "llm_io" entry (a dict from component name to prompt/response
record; none means the "llm_io" key is absent from user_data). -/
structure Doc where
  docId : Nat
  text : String := ""
  annotation : Option String := none
  llm_io : Option (List (String × ExchangeRecord)) := none
deriving DecidableEq, Repr

/-- Modelled from the spec: the Cache gateway (spacy_llm/ty.py and the
BatchCache implementation) is outside the embedded source file.  Per spec
section 4.3 it is a key-value store keyed by item identity: contains is
the membership test, get the lookup (none when absent).  Membership and
lookup are independent functions of the key so that the two can disagree,
which is the fatal branch _process_docs asserts against. -/
structure Cache where
  contains_fn : Nat → Bool
  get_fn : Nat → Option Doc

/-- Membership test, the source's (doc in self._cache). -/
def Cache.contains (c : Cache) (d : Doc) : Bool := c.contains_fn d.docId

/-- Lookup, the source's self._cache[doc]. -/
def Cache.get (c : Cache) (d : Doc) : Option Doc := c.get_fn d.docId

/-- Modelled from the spec: add stores the fully annotated item under its
identity, overwriting on re-add, and keeps membership and lookup in
agreement on the added key (spec section 4.3). -/
def Cache.add (c : Cache) (d : Doc) : Cache :=
  { contains_fn := fun k => if k = d.docId then true else c.contains_fn k
  , get_fn := fun k => if k = d.docId then some d else c.get_fn k }

/-- The user_data mutation _process_docs performs when save_io is set:
the "llm_io" dict is created if absent and the entry under the component
name is set to the given prompt/response record (dict assignment, so at
most one entry per component name remains). -/
def setLlmIoEntry (d : Doc) (name : String) (r : ExchangeRecord) : Doc :=
  { d with
    llm_io := some ((name, r) :: (d.llm_io.getD []).filter (fun kv => kv.1 != name)) }

/-- The task interface consumed by the wrapper: prompt generation and
response parsing (spec section 6).  Prompts and responses are strings. -/
structure LLMTaskModel where
  generate_prompts : List Doc → List String
  parse_responses : List Doc → List String → List Doc

/-- Call log of one _process_docs run: the argument of each call made to
task.generate_prompts, to the backend, and to task.parse_responses. -/
structure Trace where
  genArgs : List (List Doc)
  backendArgs : List (List String)
  parseArgs : List (List Doc × List String)
deriving DecidableEq, Repr

/-- The docs of a flagged batch whose cached flag is false, in order:
the noncached_doc_batch comprehension of _process_docs. -/
def missesOf (pairs : List (Doc × Bool)) : List Doc :=
  (pairs.filter (fun p => !p.2)).map Prod.fst

/-- The non-cached sub-batch of docs for a given cache. -/
def noncachedBatch (cache : Cache) (docs : List Doc) : List Doc :=
  missesOf (docs.zip (docs.map (fun d => cache.contains d)))

/-- The outputs sitting at the miss positions of the reassembled batch. -/
def missSlots (flags : List Bool) (finals : List Doc) : List Doc :=
  ((finals.zip flags).filter (fun p => !p.2)).map Prod.fst

/-- How many of the first i batch positions are cache misses. -/
def cntMissBefore (pairs : List (Doc × Bool)) (i : Nat) : Nat :=
  ((pairs.take i).filter (fun p => !p.2)).length

/-- The cache after a sequence of add calls. -/
def threadCache (cache : Cache) (adds : List Doc) : Cache :=
  adds.foldl Cache.add cache

/-- The per-miss outputs of the reassembly loop: with save_io each parsed
doc additionally gets its prompt/response pair written under the
component name; without save_io the parsed docs pass through untouched. -/
def annotateMisses (save_io : Bool) (name : String) (modified : List Doc)
    (sp sr : List String) : List Doc :=
  if save_io then
    List.zipWith (fun m pr => setLlmIoEntry m name { prompt := pr.1, response := pr.2 })
      modified (sp.zip sr)
  else modified

/-- The reassembly loop of _process_docs over the batch paired with its
precomputed is_cached flags.  The threaded cache receives the add calls;
modified is the parse_responses iterator and sp, sr are the tee-saved
prompt and response iterators, each consumed strictly in order.  none
models a raised exception: the failed assertion on a missing cache value,
or an exhausted iterator.  Python's str() applied to an already-string
prompt/response is the identity and is elided.  The cache.add call and
the save_io user_data mutation act on the same Python object, so the
added doc, the appended doc and the mutated doc coincide; the embedding
therefore applies the mutation first.  Returns the reassembled batch, the
final cache, and the arguments of the add calls in order. -/
def processLoop (name : String) (save_io : Bool) :
    List (Doc × Bool) → Cache → List Doc → List String → List String →
      Option (List Doc × Cache × List Doc)
  | [], cache, _, _, _ => some ([], cache, [])
  | (doc, hit) :: rest, cache, modified, sp, sr =>
    if hit then
      match cache.get doc with
      | none => none
      | some cached_doc =>
        match processLoop name save_io rest cache modified sp sr with
        | none => none
        | some (fs, c, adds) => some (cached_doc :: fs, c, adds)
    else
      match modified with
      | [] => none
      | d :: ms =>
        if save_io then
          match sp, sr with
          | p :: sp2, r :: sr2 =>
            let d2 := setLlmIoEntry d name { prompt := p, response := r }
            match processLoop name save_io rest (cache.add d2) ms sp2 sr2 with
            | none => none
            | some (fs, c, adds) => some (d2 :: fs, c, d2 :: adds)
          | _, _ => none
        else
          match processLoop name save_io rest (cache.add d) ms sp sr with
          | none => none
          | some (fs, c, adds) => some (d :: fs, c, d :: adds)

/-- LLMWrapper._process_docs: compute the is_cached flags, split off the
non-cached sub-batch, drive task.generate_prompts, the backend and
task.parse_responses only when that sub-batch is non-empty (tee of a list
is the list itself, used twice), then reassemble with processLoop.
Returns the reassembled batch, the final cache, the docs passed to
cache.add in order, and the call trace. -/
def processDocs (name : String) (task : LLMTaskModel)
    (backend : List String → List String) (save_io : Bool)
    (cache : Cache) (docs : List Doc) :
    Option (List Doc × Cache × List Doc × Trace) :=
  let is_cached := docs.map (fun d => cache.contains d)
  let pairs := docs.zip is_cached
  let noncached_doc_batch := missesOf pairs
  if noncached_doc_batch.isEmpty then
    match processLoop name save_io pairs cache [] [] [] with
    | none => none
    | some (fs, c, adds) => some (fs, c, adds, ⟨[], [], []⟩)
  else
    let prompts := task.generate_prompts noncached_doc_batch
    let saved_prompts := prompts
    let responses := backend prompts
    let saved_responses := responses
    let modified_docs := task.parse_responses noncached_doc_batch responses
    match processLoop name save_io pairs cache modified_docs saved_prompts saved_responses with
    | none => none
    | some (fs, c, adds) =>
      some (fs, c, adds, ⟨[noncached_doc_batch], [prompts], [(noncached_doc_batch, responses)]⟩)

/-- LLMWrapper.__call__: process the one-doc batch and return its first
element (docs[0]).  There is no try/except: a raised exception (none)
propagates to the caller and no error handler is consulted. -/
def llmCall (name : String) (task : LLMTaskModel)
    (backend : List String → List String) (save_io : Bool)
    (cache : Cache) (doc : Doc) : Option Doc :=
  match processDocs name task backend save_io cache [doc] with
  | none => none
  | some (finals, _, _, _) => finals.get? 0

/-- Score values are opaque here (Int stands in for the source's float
values): the wrapper only dispatches to the task, it computes no score
arithmetic of its own. -/
def Scores : Type := List (String × Int)

/-- The empty dict returned when the task is not Scorable. -/
def emptyScores : Scores := []

/-- LLMWrapper.score: delegate to task.scorer when the task implements
the Scorable protocol, otherwise return the empty dict.  The optional
scorer slot models the isinstance(self._task, Scorable) check. -/
def llmScore (scorer : Option (List (Doc × Doc) → Scores))
    (examples : List (Doc × Doc)) : Scores :=
  match scorer with
  | some f => f examples
  | none => emptyScores

/-- What the injected error handler decides: return normally (suppress
the failed batch) or re-raise (terminate the stream). -/
inductive HandlerAction where
  | suppress
  | reraise
deriving DecidableEq, Repr

/-- Modelled from the spec: spacy.util.minibatch is external library
code; per spec section 4.2 the stream is split into consecutive batches
of the given size, the final batch possibly shorter (with size zero
spacy's minibatch produces no batches at all). -/
def minibatch (size : Nat) (xs : List Doc) : List (List Doc) :=
  if h : size = 0 ∨ xs = [] then []
  else xs.take size :: minibatch size (xs.drop size)
termination_by xs.length
decreasing_by
  push_neg at h
  simp only [List.length_drop]
  exact Nat.sub_lt (List.length_pos.mpr h.2) (Nat.pos_of_ne_zero h.1)

/-- The batch loop of LLMWrapper.pipe: process each batch; on success
yield its outputs in order, on an exception hand (component name,
failing batch) to the error handler, which suppresses (the batch yields
nothing and the stream continues) or re-raises (the stream terminates).
Returns the yielded docs, the final cache, the handler invocations in
order, and whether a re-raise aborted the stream. -/
def pipeBatches (name : String) (task : LLMTaskModel)
    (backend : List String → List String) (save_io : Bool)
    (handler : String → List Doc → HandlerAction) :
    List (List Doc) → Cache → List Doc × Cache × List (String × List Doc) × Bool
  | [], cache => ([], cache, [], false)
  | b :: bs, cache =>
    match processDocs name task backend save_io cache b with
    | some (fs, c, _, _) =>
      let rest := pipeBatches name task backend save_io handler bs c
      (fs ++ rest.1, rest.2.1, rest.2.2.1, rest.2.2.2)
    | none =>
      match handler name b with
      | HandlerAction.suppress =>
        let rest := pipeBatches name task backend save_io handler bs cache
        (rest.1, rest.2.1, (name, b) :: rest.2.2.1, rest.2.2.2)
      | HandlerAction.reraise => ([], cache, [(name, b)], true)

/-- LLMWrapper.pipe: split the stream with minibatch and run the batch
loop. -/
def pipe (name : String) (task : LLMTaskModel)
    (backend : List String → List String) (save_io : Bool)
    (handler : String → List Doc → HandlerAction)
    (cache : Cache) (stream : List Doc) (batch_size : Nat) :
    List Doc × Cache × List (String × List Doc) × Bool :=
  pipeBatches name task backend save_io handler (minibatch batch_size stream) cache

/-- Observable state of one sub-component (task or backend) for
serialization purposes, and whether it implements the Serializable
protocol (the isinstance check of the source).  States and their byte
encodings are opaque strings. -/
structure SubComp where
  serializable : Bool
  state : String
deriving DecidableEq, Repr

/-- The serialization-relevant part of an LLMWrapper: its two
sub-components. -/
structure WrapperSer where
  task : SubComp
  backend : SubComp
deriving DecidableEq, Repr

/-- LLMWrapper.to_bytes: one named segment per Serializable
sub-component, encoded by that sub-component's own to_bytes (the opaque
enc functions); spacy's util.to_bytes then drops every segment whose key
is excluded.  The produced artifact is the named-segment container. -/
def wrapperToBytes (tEnc bEnc : String → String) (w : WrapperSer)
    (exclude : List String) : List (String × String) :=
  ((if w.task.serializable then [("task", tEnc w.task.state)] else []) ++
      (if w.backend.serializable then [("backend", bEnc w.backend.state)] else [])).filter
    (fun kv => !(exclude.contains kv.1))

/-- LLMWrapper.from_bytes: for each Serializable sub-component, if the
artifact holds its named segment and the name is not excluded, that
sub-component's from_bytes is applied in place (the opaque dec functions
map the received bytes and the old state to the new state); otherwise the
sub-component is left untouched.  Mirrors spacy's util.from_bytes /
from_dict, which skip missing and excluded keys without error. -/
def wrapperFromBytes (tDec bDec : String → String → String) (w : WrapperSer)
    (data : List (String × String)) (exclude : List String) : WrapperSer :=
  let w1 :=
    if w.task.serializable && !(exclude.contains "task") then
      match data.lookup "task" with
      | some b => { w with task := { w.task with state := tDec b w.task.state } }
      | none => w
    else w
  if w1.backend.serializable && !(exclude.contains "backend") then
    match data.lookup "backend" with
    | some b => { w1 with backend := { w1.backend with state := bDec b w1.backend.state } }
    | none => w1
  else w1

/-- LLMWrapper.to_disk: same conditional segment structure as to_bytes,
with util.to_disk writing one named sub-path per non-excluded
Serializable sub-component.  Modelled as the list of written segments. -/
def wrapperToDisk (tEnc bEnc : String → String) (w : WrapperSer)
    (exclude : List String) : List (String × String) :=
  ((if w.task.serializable then [("task", tEnc w.task.state)] else []) ++
      (if w.backend.serializable then [("backend", bEnc w.backend.state)] else [])).filter
    (fun kv => !(exclude.contains kv.1))

/-- LLMWrapper.from_disk: for each Serializable sub-component whose name
is not excluded and whose segment is on disk, apply its from_disk in
place; everything else is left untouched and nothing raises. -/
def wrapperFromDisk (tDec bDec : String → String → String) (w : WrapperSer)
    (data : List (String × String)) (exclude : List String) : WrapperSer :=
  let w1 :=
    if w.task.serializable && !(exclude.contains "task") then
      match data.lookup "task" with
      | some b => { w with task := { w.task with state := tDec b w.task.state } }
      | none => w
    else w
  if w1.backend.serializable && !(exclude.contains "backend") then
    match data.lookup "backend" with
    | some b => { w1 with backend := { w1.backend with state := bDec b w1.backend.state } }
    | none => w1
  else w1


/-- The prompts produced for a batch: task.generate_prompts applied to
the non-cached sub-batch. -/
def promptsOf (task : LLMTaskModel) (cache : Cache) (docs : List Doc) : List String :=
  task.generate_prompts (noncachedBatch cache docs)

/-- The responses produced for a batch: the backend applied to the
prompts. -/
def responsesOf (task : LLMTaskModel) (backend : List String → List String)
    (cache : Cache) (docs : List Doc) : List String :=
  backend (promptsOf task cache docs)

/-- The parsed docs produced for a batch: task.parse_responses applied to
the non-cached sub-batch and the responses. -/
def modifiedOf (task : LLMTaskModel) (backend : List String → List String)
    (cache : Cache) (docs : List Doc) : List Doc :=
  task.parse_responses (noncachedBatch cache docs) (responsesOf task backend cache docs)

/-- The call trace a batch generates: nothing when every doc is cached,
otherwise exactly one call to each of generate_prompts, the backend and
parse_responses, on the non-cached sub-batch. -/
def traceOf (task : LLMTaskModel) (backend : List String → List String)
    (cache : Cache) (docs : List Doc) : Trace :=
  if (noncachedBatch cache docs).isEmpty then ⟨[], [], []⟩
  else ⟨[noncachedBatch cache docs], [promptsOf task cache docs],
    [(noncachedBatch cache docs, responsesOf task backend cache docs)]⟩


/-- Batch-level instance of the CacheGateway contract (spec section 4.3):
every doc the cache reports present resolves to a value carrying the same
identity. -/
abbrev CacheAgrees (cache : Cache) (docs : List Doc) : Prop :=
  ∀ d ∈ docs, cache.contains d = true → (cache.get d).map Doc.docId = some d.docId

/-- Batch-level instance of the task contract (spec section 6):
parse_responses is 1:1 and identity-preserving on the non-cached
sub-batch, for the responses actually produced. -/
abbrev ParseFaithful (task : LLMTaskModel) (backend : List String → List String)
    (cache : Cache) (docs : List Doc) : Prop :=
  (modifiedOf task backend cache docs).map Doc.docId
    = (noncachedBatch cache docs).map Doc.docId

/-- Batch-level instance of the 1:1 prompt/response contracts: the prompt
and response sequences cover the non-cached sub-batch. -/
abbrev StreamsCover (task : LLMTaskModel) (backend : List String → List String)
    (cache : Cache) (docs : List Doc) : Prop :=
  (noncachedBatch cache docs).length ≤ (promptsOf task cache docs).length ∧
  (noncachedBatch cache docs).length ≤ (responsesOf task backend cache docs).length

/-- One pipe run over a batch list: each batch either processes
successfully (recording its outputs and threading the cache) or raises
(recording none and leaving the cache as it was). -/
inductive BatchRun (name : String) (task : LLMTaskModel)
    (backend : List String → List String) (save_io : Bool) :
    Cache → List (List Doc) → List (Option (List Doc)) → Cache → Prop where
  | nil (cache : Cache) : BatchRun name task backend save_io cache [] [] cache
  | ok (cache : Cache) (b : List Doc) (fs : List Doc) (cache2 : Cache) (adds : List Doc)
      (tr : Trace) (bs : List (List Doc)) (outs : List (Option (List Doc))) (cacheF : Cache) :
      processDocs name task backend save_io cache b = some (fs, cache2, adds, tr) →
      BatchRun name task backend save_io cache2 bs outs cacheF →
      BatchRun name task backend save_io cache (b :: bs) (some fs :: outs) cacheF
  | fail (cache : Cache) (b : List Doc) (bs : List (List Doc))
      (outs : List (Option (List Doc))) (cacheF : Cache) :
      processDocs name task backend save_io cache b = none →
      BatchRun name task backend save_io cache bs outs cacheF →
      BatchRun name task backend save_io cache (b :: bs) (none :: outs) cacheF

/-- Conclusion of claim C1: on success the output batch has the length of
the input batch and matches it identity-for-identity, position by
position. -/
def C1Holds (name : String) (task : LLMTaskModel) (backend : List String → List String)
    (save_io : Bool) (cache : Cache) (docs : List Doc) : Prop :=
  ∃ finals cache2 adds tr,
    processDocs name task backend save_io cache docs = some (finals, cache2, adds, tr) ∧
    finals.length = docs.length ∧
    finals.map Doc.docId = docs.map Doc.docId

/-- Conclusion of claim C2: the call trace is exactly one
generate_prompts / backend / parse_responses call on the non-cached
sub-batch (none when it is empty), every miss's annotated result is added
to the cache exactly once in order, the final cache is the input cache
plus those adds, afterwards every batch doc is a cache member, and
re-running the same batch on the resulting cache performs no task or
backend call, adds nothing, and leaves the cache unchanged. -/
def C2Holds (name : String) (task : LLMTaskModel) (backend : List String → List String)
    (save_io : Bool) (cache : Cache) (docs : List Doc) : Prop :=
  ∃ finals cache2 adds,
    processDocs name task backend save_io cache docs =
      some (finals, cache2, adds, traceOf task backend cache docs) ∧
    adds = annotateMisses save_io name (modifiedOf task backend cache docs)
      (promptsOf task cache docs) (responsesOf task backend cache docs) ∧
    adds.map Doc.docId = (noncachedBatch cache docs).map Doc.docId ∧
    missSlots (docs.map (fun d => cache.contains d)) finals = adds ∧
    cache2 = threadCache cache adds ∧
    (∀ d ∈ docs, cache2.contains d = true) ∧
    ∃ finals2, processDocs name task backend save_io cache2 docs =
      some (finals2, cache2, [], ⟨[], [], []⟩)

/-- Conclusion of claim C3: with capture enabled, the miss outputs (in
batch order, interleaved with hits) are exactly the added docs, there is
one per non-cached doc, and the k-th one carries under the component name
exactly one ExchangeRecord, holding the k-th prompt and the k-th
response of the miss sub-sequence. -/
def C3Holds (name : String) (task : LLMTaskModel) (backend : List String → List String)
    (cache : Cache) (docs : List Doc) : Prop :=
  ∃ finals cache2 adds,
    processDocs name task backend true cache docs =
      some (finals, cache2, adds, traceOf task backend cache docs) ∧
    missSlots (docs.map (fun d => cache.contains d)) finals = adds ∧
    adds.length = (noncachedBatch cache docs).length ∧
    ∀ k a, adds.get? k = some a →
      ∃ m p r, (noncachedBatch cache docs).get? k = some m ∧
        (promptsOf task cache docs).get? k = some p ∧
        (responsesOf task backend cache docs).get? k = some r ∧
        a.docId = m.docId ∧
        (a.llm_io.getD []).lookup name = some ⟨p, r⟩ ∧
        ((a.llm_io.getD []).filter (fun kv => kv.1 == name)).length = 1

/-- Conclusion of claim C4: a doc reported present whose lookup yields
nothing makes the whole batch raise (no recovery as a miss), while under
the agreement precondition the run succeeds. -/
def C4Holds (name : String) (task : LLMTaskModel) (backend : List String → List String)
    (save_io : Bool) (cache : Cache) (docs : List Doc) : Prop :=
  ((∃ d ∈ docs, cache.contains d = true ∧ cache.get d = none) →
    processDocs name task backend save_io cache docs = none) ∧
  (CacheAgrees cache docs →
    (processDocs name task backend save_io cache docs).isSome = true)

/-- Conclusion of claim C5: the stream is split into consecutive batches
of the requested size (final batch possibly shorter, none empty), and
with a suppressing handler the pipe output is exactly the concatenation
of the successful batches' outputs in order, the failing batches
contribute nothing and produce exactly one handler invocation each with
the component name and the failing batch, and the stream is not
aborted. -/
def C5Holds (name : String) (task : LLMTaskModel) (backend : List String → List String)
    (save_io : Bool) (cache : Cache) (stream : List Doc) (batch_size : Nat) : Prop :=
  (minibatch batch_size stream).flatten = stream ∧
  (∀ b ∈ minibatch batch_size stream, b ≠ [] ∧ b.length ≤ batch_size) ∧
  (∀ i b, (minibatch batch_size stream).get? i = some b →
    i + 1 < (minibatch batch_size stream).length → b.length = batch_size) ∧
  ∃ outsPer cacheF,
    BatchRun name task backend save_io cache (minibatch batch_size stream) outsPer cacheF ∧
    pipe name task backend save_io (fun _ _ => HandlerAction.suppress) cache stream batch_size =
      ((outsPer.filterMap id).flatten, cacheF,
        (((minibatch batch_size stream).zip outsPer).filter (fun p => p.2.isNone)).map
          (fun p => (name, p.1)), false)

/-- Conclusion of claim C6: serializing and restoring into a fresh
instance with matching capabilities reproduces the sub-component states,
and excluding the same field name on both ends leaves exactly that
segment at its fresh value, without error, for the byte and the disk
entry points alike. -/
def C6Holds (w fresh : WrapperSer) (tEnc bEnc : String → String)
    (tDec bDec : String → String → String) : Prop :=
  wrapperFromBytes tDec bDec fresh (wrapperToBytes tEnc bEnc w []) [] =
    ⟨⟨fresh.task.serializable, w.task.state⟩, ⟨fresh.backend.serializable, w.backend.state⟩⟩ ∧
  wrapperFromDisk tDec bDec fresh (wrapperToDisk tEnc bEnc w []) [] =
    ⟨⟨fresh.task.serializable, w.task.state⟩, ⟨fresh.backend.serializable, w.backend.state⟩⟩ ∧
  ∀ e : String,
    (wrapperFromBytes tDec bDec fresh (wrapperToBytes tEnc bEnc w [e]) [e]).task.state =
      (if e = "task" then fresh.task.state else w.task.state) ∧
    (wrapperFromBytes tDec bDec fresh (wrapperToBytes tEnc bEnc w [e]) [e]).backend.state =
      (if e = "backend" then fresh.backend.state else w.backend.state) ∧
    (wrapperFromDisk tDec bDec fresh (wrapperToDisk tEnc bEnc w [e]) [e]).task.state =
      (if e = "task" then fresh.task.state else w.task.state) ∧
    (wrapperFromDisk tDec bDec fresh (wrapperToDisk tEnc bEnc w [e]) [e]).backend.state =
      (if e = "backend" then fresh.backend.state else w.backend.state)

/-- Conclusion of claim C7: each serialization entry point carries a
named segment for a sub-component exactly when that sub-component is
Serializable, and a non-Serializable sub-component is left untouched by
restoration, whatever the artifact holds, without error. -/
def C7Holds (w : WrapperSer) (tEnc bEnc : String → String)
    (tDec bDec : String → String → String) : Prop :=
  ((wrapperToBytes tEnc bEnc w []).lookup "task").isSome = w.task.serializable ∧
  ((wrapperToBytes tEnc bEnc w []).lookup "backend").isSome = w.backend.serializable ∧
  ((wrapperToDisk tEnc bEnc w []).lookup "task").isSome = w.task.serializable ∧
  ((wrapperToDisk tEnc bEnc w []).lookup "backend").isSome = w.backend.serializable ∧
  (w.task.serializable = false → ∀ data exclude,
    (wrapperFromBytes tDec bDec w data exclude).task = w.task ∧
    (wrapperFromDisk tDec bDec w data exclude).task = w.task) ∧
  (w.backend.serializable = false → ∀ data exclude,
    (wrapperFromBytes tDec bDec w data exclude).backend = w.backend ∧
    (wrapperFromDisk tDec bDec w data exclude).backend = w.backend)

/-- Conclusion of claim C8: a single-item call fails exactly when
processing the one-item batch fails (errors propagate, nothing handles
them), and on success it returns precisely the single element of that
batch's output. -/
def C8Holds (name : String) (task : LLMTaskModel) (backend : List String → List String)
    (save_io : Bool) (cache : Cache) (doc : Doc) : Prop :=
  (llmCall name task backend save_io cache doc = none ↔
    processDocs name task backend save_io cache [doc] = none) ∧
  (∀ fs cache2 adds tr,
    processDocs name task backend save_io cache [doc] = some (fs, cache2, adds, tr) →
    ∃ d2, fs = [d2] ∧ llmCall name task backend save_io cache doc = some d2)

/-- Conclusion of claim C9: score delegates to the scorer when present
and returns the empty mapping otherwise. -/
def C9Holds (scorer : Option (List (Doc × Doc) → Scores))
    (examples : List (Doc × Doc)) : Prop :=
  (∀ f, scorer = some f → llmScore scorer examples = f examples) ∧
  (scorer = none → llmScore scorer examples = emptyScores)

/-- Conclusion of claim C10: with capture disabled, the miss outputs are
exactly the parse outputs, untouched (in particular their user_data is
whatever the task produced), the hit outputs come from cache lookups, and
the only cache effect is adding the parse outputs. -/
def C10Holds (name : String) (task : LLMTaskModel) (backend : List String → List String)
    (cache : Cache) (docs : List Doc) : Prop :=
  ∃ finals cache2 adds,
    processDocs name task backend false cache docs =
      some (finals, cache2, adds, traceOf task backend cache docs) ∧
    adds = modifiedOf task backend cache docs ∧
    missSlots (docs.map (fun d => cache.contains d)) finals = adds ∧
    cache2 = threadCache cache adds ∧
    (∀ i d, docs.get? i = some d → cache.contains d = true →
      (threadCache cache
          (adds.take (cntMissBefore (docs.zip (docs.map (fun x => cache.contains x))) i))).get d
        = finals.get? i)

/-! Concrete fixtures used to evaluate the development on closed inputs. -/

/-- A concrete doc with the given identity. -/
def wDoc (i : Nat) : Doc := { docId := i }

/-- A concrete task: prompts are the texts, parsing stores each response
in the annotation slot of the corresponding doc. -/
def wTask : LLMTaskModel :=
  { generate_prompts := fun ds => ds.map (fun d => "P:" ++ d.text)
  , parse_responses := fun ds rs => (ds.zip rs).map (fun p => { p.1 with annotation := some p.2 }) }

/-- A concrete backend answering every prompt. -/
def wBackend (ps : List String) : List String := ps.map (fun p => "R:" ++ p)

/-- A concrete cache holding exactly the doc with identity 0. -/
def wCache0 : Cache :=
  { contains_fn := fun k => k == 0
  , get_fn := fun k => if k == 0 then some { wDoc 0 with annotation := some "cached" } else none }

/-- A contract-violating cache: membership reports identity 0 present,
but lookup returns nothing. -/
def wCacheBad : Cache :=
  { contains_fn := fun k => k == 0
  , get_fn := fun _ => none }

/-- The empty cache. -/
def wEmptyCache : Cache :=
  { contains_fn := fun _ => false
  , get_fn := fun _ => none }

/-! Helper lemmas about the embedded operations. -/

theorem setLlmIoEntry_docId (d : Doc) (name : String) (r : ExchangeRecord) :
    (setLlmIoEntry d name r).docId = d.docId := rfl

theorem Cache.get_add (c : Cache) (x d : Doc) :
    (c.add x).get d = if d.docId = x.docId then some x else c.get d := rfl

theorem Cache.contains_add (c : Cache) (x d : Doc) :
    (c.add x).contains d = if d.docId = x.docId then true else c.contains d := rfl

theorem threadCache_nil (c : Cache) : threadCache c [] = c := rfl

theorem threadCache_cons (c : Cache) (a : Doc) (l : List Doc) :
    threadCache c (a :: l) = threadCache (c.add a) l := rfl

/-- The hit invariant (every present doc resolves to a value with the
same identity) is preserved by any add. -/
theorem hitInv_add {pairs : List (Doc × Bool)} {c : Cache} (x : Doc)
    (h : ∀ p ∈ pairs, p.2 = true → ∃ d', c.get p.1 = some d' ∧ d'.docId = p.1.docId) :
    ∀ p ∈ pairs, p.2 = true → ∃ d', (c.add x).get p.1 = some d' ∧ d'.docId = p.1.docId := by
  intro p hp hhit
  rw [Cache.get_add]
  by_cases hid : p.1.docId = x.docId
  · exact ⟨x, by simp [hid]⟩
  · simpa [hid] using h p hp hhit

/-- Membership survives any add. -/
theorem Cache.contains_add_of_contains {c : Cache} {d : Doc} (x : Doc)
    (h : c.contains d = true) : (c.add x).contains d = true := by
  rw [Cache.contains_add]
  by_cases hid : d.docId = x.docId <;> simp [hid, h]

theorem threadCache_contains_of_contains {c : Cache} {d : Doc} (l : List Doc)
    (h : c.contains d = true) : (threadCache c l).contains d = true := by
  induction l generalizing c with
  | nil => exact h
  | cons a l ih => exact ih (Cache.contains_add_of_contains a h)

/-- A doc whose identity was added is a member of the threaded cache. -/
theorem threadCache_contains_of_mem {c : Cache} {d : Doc} {l : List Doc}
    (h : ∃ a ∈ l, a.docId = d.docId) : (threadCache c l).contains d = true := by
  induction l generalizing c with
  | nil => simp at h
  | cons a l ih =>
    obtain ⟨b, hb, hid⟩ := h
    rcases List.mem_cons.mp hb with rfl | hb
    · by_cases hmem : ∃ x ∈ l, x.docId = d.docId
      · exact ih hmem
      · refine threadCache_contains_of_contains l ?_
        rw [Cache.contains_add]
        simp [hid.symm]
    · exact ih ⟨b, hb, hid⟩

/-- A threaded cache resolves a doc to a same-identity value as soon as
the base cache does or one of the adds carries its identity. -/
theorem threadCache_get_id {c : Cache} {d : Doc} {l : List Doc}
    (h : (∃ d', c.get d = some d' ∧ d'.docId = d.docId) ∨ ∃ a ∈ l, a.docId = d.docId) :
    ∃ d', (threadCache c l).get d = some d' ∧ d'.docId = d.docId := by
  induction l generalizing c with
  | nil => simpa using h.resolve_right (by simp)
  | cons a l ih =>
    rw [threadCache_cons]
    refine ih ?_
    rcases h with hbase | hmem
    · left
      rw [Cache.get_add]
      by_cases hid : d.docId = a.docId
      · exact ⟨a, by simp [hid]⟩
      · simpa [hid] using hbase
    · obtain ⟨b, hb, hid⟩ := hmem
      rcases List.mem_cons.mp hb with rfl | hb
      · left
        rw [Cache.get_add]
        exact ⟨b, by simp [hid.symm], hid⟩
      · right
        exact ⟨b, hb, hid⟩

/-- Indexing a batch zipped with a function of itself. -/
theorem zipMap_get? {α β : Type} (docs : List α) (f : α → β) (i : Nat) :
    (docs.zip (docs.map f)).get? i = (docs.get? i).map (fun d => (d, f d)) := by
  induction docs generalizing i with
  | nil => simp
  | cons d ds ih =>
    cases i with
    | zero => simp
    | succ j => simpa using ih j

/-- Members of a batch zipped with a function of itself. -/
theorem zipMap_mem {α β : Type} {docs : List α} {f : α → β} {p : α × β}
    (h : p ∈ docs.zip (docs.map f)) : p.1 ∈ docs ∧ p.2 = f p.1 := by
  induction docs with
  | nil => simp at h
  | cons d ds ih =>
    rcases List.mem_cons.mp (by simpa using h) with rfl | h
    · simp
    · have := ih h
      exact ⟨List.mem_cons_of_mem _ this.1, this.2⟩

theorem map_fst_zipMap {α β : Type} (docs : List α) (f : α → β) :
    (docs.zip (docs.map f)).map Prod.fst = docs :=
  List.map_fst_zip _ _ (by simp)

theorem map_snd_zipMap {α β : Type} (docs : List α) (f : α → β) :
    (docs.zip (docs.map f)).map Prod.snd = docs.map f :=
  List.map_snd_zip _ _ (by simp)

/-- Docs of the non-cached sub-batch are reported absent by the cache. -/
theorem noncachedBatch_contains {cache : Cache} {docs : List Doc} :
    ∀ d ∈ noncachedBatch cache docs, cache.contains d = false := by
  intro d hd
  unfold noncachedBatch missesOf at hd
  obtain ⟨p, hp, rfl⟩ := List.mem_map.mp hd
  have hfil := List.mem_filter.mp hp
  have hzip := zipMap_mem hfil.1
  have : (!p.2) = true := hfil.2
  rw [hzip.2] at this
  simpa using this

/-- When every doc of the batch is a member, the non-cached sub-batch is
empty. -/
theorem noncachedBatch_eq_nil {cache : Cache} {docs : List Doc}
    (h : ∀ d ∈ docs, cache.contains d = true) : noncachedBatch cache docs = [] := by
  unfold noncachedBatch missesOf
  rw [List.map_eq_nil_iff, List.filter_eq_nil_iff]
  intro p hp
  have hzip := zipMap_mem hp
  simp [hzip.2, h p.1 hzip.1]

/-- A successful reassembly loop returns one output per input position. -/
theorem processLoop_length {name : String} {save_io : Bool} :
    ∀ {pairs : List (Doc × Bool)} {cache : Cache} {modified : List Doc}
      {sp sr : List String} {fs : List Doc} {c : Cache} {adds : List Doc},
      processLoop name save_io pairs cache modified sp sr = some (fs, c, adds) →
      fs.length = pairs.length := by
  intro pairs
  induction pairs with
  | nil =>
    intro cache modified sp sr fs c adds h
    simp only [processLoop] at h
    cases h
    rfl
  | cons p rest ih =>
    intro cache modified sp sr fs c adds h
    obtain ⟨doc, hit⟩ := p
    simp only [processLoop] at h
    split at h
    · split at h
      · cases h
      · split at h
        · cases h
        · rename_i heq
          cases h
          simpa using ih heq
    · split at h
      · cases h
      · split at h
        · split at h
          · split at h
            · cases h
            · rename_i heq
              cases h
              simpa using ih heq
          · cases h
        · split at h
          · cases h
          · rename_i heq
            cases h
            simpa using ih heq

theorem processLoop_cons_hit (name : String) (sio : Bool) (doc : Doc) (rest : List (Doc × Bool))
    (cache : Cache) (modified : List Doc) (sp sr : List String) :
    processLoop name sio ((doc, true) :: rest) cache modified sp sr =
      match cache.get doc with
      | none => none
      | some cached_doc =>
        match processLoop name sio rest cache modified sp sr with
        | none => none
        | some (fs, c, adds) => some (cached_doc :: fs, c, adds) := by
  simp only [processLoop, if_true]

theorem processLoop_cons_miss_false (name : String) (doc : Doc) (rest : List (Doc × Bool))
    (cache : Cache) (m : Doc) (ms : List Doc) (sp sr : List String) :
    processLoop name false ((doc, false) :: rest) cache (m :: ms) sp sr =
      match processLoop name false rest (cache.add m) ms sp sr with
      | none => none
      | some (fs, c, adds) => some (m :: fs, c, m :: adds) := by
  simp only [processLoop, Bool.false_eq_true, if_false]

theorem processLoop_cons_miss_true (name : String) (doc : Doc) (rest : List (Doc × Bool))
    (cache : Cache) (m : Doc) (ms : List Doc) (p r : String) (sp2 sr2 : List String) :
    processLoop name true ((doc, false) :: rest) cache (m :: ms) (p :: sp2) (r :: sr2) =
      (match processLoop name true rest
          (cache.add (setLlmIoEntry m name { prompt := p, response := r })) ms sp2 sr2 with
      | none => none
      | some (fs, c, adds) =>
        some (setLlmIoEntry m name { prompt := p, response := r } :: fs, c,
          setLlmIoEntry m name { prompt := p, response := r } :: adds)) := by
  simp only [processLoop, Bool.false_eq_true, if_false, if_true]

theorem processLoop_cons_miss_nil (name : String) (sio : Bool) (doc : Doc)
    (rest : List (Doc × Bool)) (cache : Cache) (sp sr : List String) :
    processLoop name sio ((doc, false) :: rest) cache [] sp sr = none := by
  simp only [processLoop, Bool.false_eq_true, if_false]

theorem missesOf_cons_hit (doc : Doc) (rest : List (Doc × Bool)) :
    missesOf ((doc, true) :: rest) = missesOf rest := by
  simp [missesOf]

theorem missesOf_cons_miss (doc : Doc) (rest : List (Doc × Bool)) :
    missesOf ((doc, false) :: rest) = doc :: missesOf rest := by
  simp [missesOf]

theorem missSlots_cons_hit (flags : List Bool) (x : Doc) (finals : List Doc) :
    missSlots (true :: flags) (x :: finals) = missSlots flags finals := by
  simp [missSlots]

theorem missSlots_cons_miss (flags : List Bool) (x : Doc) (finals : List Doc) :
    missSlots (false :: flags) (x :: finals) = x :: missSlots flags finals := by
  simp [missSlots]

theorem cntMissBefore_zero (pairs : List (Doc × Bool)) : cntMissBefore pairs 0 = 0 := by
  simp [cntMissBefore]

theorem cntMissBefore_succ_hit (doc : Doc) (rest : List (Doc × Bool)) (j : Nat) :
    cntMissBefore ((doc, true) :: rest) (j + 1) = cntMissBefore rest j := by
  simp [cntMissBefore]

theorem cntMissBefore_succ_miss (doc : Doc) (rest : List (Doc × Bool)) (j : Nat) :
    cntMissBefore ((doc, false) :: rest) (j + 1) = cntMissBefore rest j + 1 := by
  simp [cntMissBefore]

theorem processLoop_sound (name : String) (save_io : Bool) :
    ∀ (pairs : List (Doc × Bool)) (cache : Cache) (modified : List Doc) (sp sr : List String),
    (∀ p ∈ pairs, p.2 = true → ∃ d2, cache.get p.1 = some d2 ∧ d2.docId = p.1.docId) →
    modified.map Doc.docId = (missesOf pairs).map Doc.docId →
    (save_io = true → (missesOf pairs).length ≤ sp.length ∧ (missesOf pairs).length ≤ sr.length) →
    ∃ finals cache2 adds,
      processLoop name save_io pairs cache modified sp sr = some (finals, cache2, adds) ∧
      finals.map Doc.docId = pairs.map (fun p => p.1.docId) ∧
      adds = annotateMisses save_io name modified sp sr ∧
      missSlots (pairs.map Prod.snd) finals = adds ∧
      cache2 = threadCache cache adds ∧
      (∀ i p, pairs.get? i = some p → p.2 = true →
        (threadCache cache (adds.take (cntMissBefore pairs i))).get p.1 = finals.get? i) := by
  intro pairs
  induction pairs with
  | nil =>
    intro cache modified sp sr hhit hmod hsp
    have hmodnil : modified = [] := by
      have : modified.map Doc.docId = [] := by simpa [missesOf] using hmod
      simpa using this
    subst hmodnil
    refine ⟨[], cache, [], rfl, rfl, ?_, rfl, rfl, ?_⟩
    · simp [annotateMisses]
    · intro i p hp
      simp at hp
  | cons q rest ih =>
    obtain ⟨doc, hit⟩ := q
    intro cache modified sp sr hhit hmod hsp
    cases hit with
    | true =>
      obtain ⟨cd, hget, hid⟩ := hhit (doc, true) (List.mem_cons_self _ _) rfl
      rw [missesOf_cons_hit] at hmod hsp
      obtain ⟨finals, cache2, adds, hrun, hids, hadds, hslots, hc2, hhits⟩ :=
        ih cache modified sp sr (fun p hp => hhit p (List.mem_cons_of_mem _ hp)) hmod hsp
      refine ⟨cd :: finals, cache2, adds, ?_, ?_, hadds, ?_, hc2, ?_⟩
      · rw [processLoop_cons_hit, hget, hrun]
      · simpa [hid] using hids
      · simpa [missSlots_cons_hit] using hslots
      · intro i p hp hp2
        cases i with
        | zero =>
          simp only [List.get?] at hp
          cases hp
          simp [cntMissBefore_zero, threadCache_nil, hget]
        | succ j =>
          simp only [List.get?] at hp
          rw [cntMissBefore_succ_hit]
          simpa using hhits j p hp hp2
    | false =>
      rw [missesOf_cons_miss] at hmod hsp
      cases modified with
      | nil => simp at hmod
      | cons m ms =>
        simp only [List.map_cons] at hmod
        have hm : m.docId = doc.docId := by
          exact (List.cons.injEq _ _ _ _).mp hmod |>.1
        have hms : ms.map Doc.docId = (missesOf rest).map Doc.docId := by
          exact (List.cons.injEq _ _ _ _).mp hmod |>.2
        cases save_io with
        | false =>
          obtain ⟨finals, cache2, adds, hrun, hids, hadds, hslots, hc2, hhits⟩ :=
            ih (cache.add m) ms sp sr
              (hitInv_add m (fun p hp => hhit p (List.mem_cons_of_mem _ hp)))
              hms (by intro hc; cases hc)
          have haddseq : adds = ms := by simpa [annotateMisses] using hadds
          refine ⟨m :: finals, cache2, m :: adds, ?_, ?_, ?_, ?_, ?_, ?_⟩
          · rw [processLoop_cons_miss_false, hrun]
          · simpa [hm] using hids
          · simp [annotateMisses, haddseq]
          · simpa [missSlots_cons_miss] using hslots
          · rw [hc2, threadCache_cons]
          · intro i p hp hp2
            cases i with
            | zero =>
              simp only [List.get?] at hp
              cases hp
              cases hp2
            | succ j =>
              simp only [List.get?] at hp
              rw [cntMissBefore_succ_miss, List.take_succ_cons, threadCache_cons]
              simpa using hhits j p hp hp2
        | true =>
          obtain ⟨hsp1, hsp2⟩ := hsp rfl
          cases sp with
          | nil => simp at hsp1
          | cons p0 sp2 =>
            cases sr with
            | nil => simp at hsp2
            | cons r0 sr2 =>
              have hsp1a : (missesOf rest).length ≤ sp2.length := by
                simpa using hsp1
              have hsp2a : (missesOf rest).length ≤ sr2.length := by
                simpa using hsp2
              obtain ⟨finals, cache2, adds, hrun, hids, hadds, hslots, hc2, hhits⟩ :=
                ih (cache.add (setLlmIoEntry m name { prompt := p0, response := r0 })) ms sp2 sr2
                  (hitInv_add _ (fun p hp => hhit p (List.mem_cons_of_mem _ hp)))
                  hms (fun _ => ⟨hsp1a, hsp2a⟩)
              refine ⟨setLlmIoEntry m name { prompt := p0, response := r0 } :: finals, cache2,
                setLlmIoEntry m name { prompt := p0, response := r0 } :: adds, ?_, ?_, ?_, ?_, ?_, ?_⟩
              · rw [processLoop_cons_miss_true, hrun]
              · simpa [setLlmIoEntry_docId, hm] using hids
              · simp [annotateMisses, hadds]
              · simpa [missSlots_cons_miss] using hslots
              · rw [hc2, threadCache_cons]
              · intro i p hp hp2
                cases i with
                | zero =>
                  simp only [List.get?] at hp
                  cases hp
                  cases hp2
                | succ j =>
                  simp only [List.get?] at hp
                  rw [cntMissBefore_succ_miss, List.take_succ_cons, threadCache_cons]
                  simpa using hhits j p hp hp2
theorem processLoop_true_spnil (name : String) (doc : Doc) (rest : List (Doc × Bool))
    (cache : Cache) (m : Doc) (ms : List Doc) (sr : List String) :
    processLoop name true ((doc, false) :: rest) cache (m :: ms) [] sr = none := by
  simp only [processLoop, Bool.false_eq_true, if_false, if_true]

theorem processLoop_true_srnil (name : String) (doc : Doc) (rest : List (Doc × Bool))
    (cache : Cache) (m : Doc) (ms : List Doc) (sp : List String) :
    processLoop name true ((doc, false) :: rest) cache (m :: ms) sp [] = none := by
  cases sp <;> simp only [processLoop, Bool.false_eq_true, if_false, if_true]

/-- Failure propagation: if some position is flagged as a cache hit but
its lookup in the original cache yields nothing, and no parsed doc can
shadow a hit identity, the reassembly loop raises (returns none) rather
than recovering. -/
theorem processLoop_none (name : String) (save_io : Bool) :
    ∀ (pairs : List (Doc × Bool)) (cache : Cache) (modified : List Doc) (sp sr : List String),
    (∃ p ∈ pairs, p.2 = true ∧ cache.get p.1 = none) →
    (∀ m ∈ modified, ∀ p ∈ pairs, p.2 = true → m.docId ≠ p.1.docId) →
    processLoop name save_io pairs cache modified sp sr = none := by
  intro pairs
  induction pairs with
  | nil =>
    intro cache modified sp sr hw hdisj
    obtain ⟨p, hp, _⟩ := hw
    simp at hp
  | cons q rest ih =>
    obtain ⟨doc, hit⟩ := q
    intro cache modified sp sr hw hdisj
    cases hit with
    | true =>
      rw [processLoop_cons_hit]
      cases hget : cache.get doc with
      | none => rfl
      | some cd =>
        obtain ⟨p, hp, hp2, hpget⟩ := hw
        rcases List.mem_cons.mp hp with heq | hp
        · subst heq
          simp [hget] at hpget
        · rw [ih cache modified sp sr ⟨p, hp, hp2, hpget⟩
            (fun m hm p2 hp2m => hdisj m hm p2 (List.mem_cons_of_mem _ hp2m))]
    | false =>
      obtain ⟨p, hp, hp2, hpget⟩ := hw
      rcases List.mem_cons.mp hp with heq | hp
      · subst heq
        simp at hp2
      cases modified with
      | nil => exact processLoop_cons_miss_nil name save_io doc rest cache sp sr
      | cons m ms =>
        have hdisjrest : ∀ x ∈ ms, ∀ p2 ∈ rest, p2.2 = true → x.docId ≠ p2.1.docId :=
          fun x hx p2 hp2m h2 =>
            hdisj x (List.mem_cons_of_mem _ hx) p2 (List.mem_cons_of_mem _ hp2m) h2
        have hne : m.docId ≠ p.1.docId :=
          hdisj m (List.mem_cons_self _ _) p (List.mem_cons_of_mem _ hp) hp2
        cases save_io with
        | false =>
          rw [processLoop_cons_miss_false]
          have hwrest : ∃ p2 ∈ rest, p2.2 = true ∧ (cache.add m).get p2.1 = none := by
            refine ⟨p, hp, hp2, ?_⟩
            rw [Cache.get_add, if_neg (fun hc => hne hc.symm)]
            exact hpget
          rw [ih (cache.add m) ms sp sr hwrest hdisjrest]
        | true =>
          cases sp with
          | nil => exact processLoop_true_spnil name doc rest cache m ms sr
          | cons p0 sp2 =>
            cases sr with
            | nil => exact processLoop_true_srnil name doc rest cache m ms (p0 :: sp2)
            | cons r0 sr2 =>
              rw [processLoop_cons_miss_true]
              have hwrest : ∃ p2 ∈ rest, p2.2 = true ∧
                  (cache.add (setLlmIoEntry m name { prompt := p0, response := r0 })).get p2.1 = none := by
                refine ⟨p, hp, hp2, ?_⟩
                rw [Cache.get_add]
                rw [setLlmIoEntry_docId, if_neg (fun hc => hne hc.symm)]
                exact hpget
              rw [ih (cache.add (setLlmIoEntry m name { prompt := p0, response := r0 })) ms sp2 sr2
                hwrest hdisjrest]

theorem map_fst_docId_zipMap (docs : List Doc) (f : Doc → Bool) :
    (docs.zip (docs.map f)).map (fun p => p.1.docId) = docs.map Doc.docId := by
  induction docs with
  | nil => simp
  | cons d ds ih => simpa using ih

theorem processDocs_eq_empty (name : String) (task : LLMTaskModel)
    (backend : List String → List String) (save_io : Bool) (cache : Cache) (docs : List Doc)
    (h : (noncachedBatch cache docs).isEmpty = true) :
    processDocs name task backend save_io cache docs =
      match processLoop name save_io (docs.zip (docs.map (fun d => cache.contains d)))
          cache [] [] [] with
      | none => none
      | some (fs, c, adds) => some (fs, c, adds, traceOf task backend cache docs) := by
  simp only [processDocs, traceOf, noncachedBatch] at h ⊢
  rw [if_pos h, if_pos h]

theorem processDocs_eq_nonempty (name : String) (task : LLMTaskModel)
    (backend : List String → List String) (save_io : Bool) (cache : Cache) (docs : List Doc)
    (h : (noncachedBatch cache docs).isEmpty = false) :
    processDocs name task backend save_io cache docs =
      match processLoop name save_io (docs.zip (docs.map (fun d => cache.contains d))) cache
          (modifiedOf task backend cache docs) (promptsOf task cache docs)
          (responsesOf task backend cache docs) with
      | none => none
      | some (fs, c, adds) => some (fs, c, adds, traceOf task backend cache docs) := by
  simp only [processDocs, traceOf, noncachedBatch, modifiedOf, promptsOf, responsesOf] at h ⊢
  rw [if_neg (by simp [h]), if_neg (by simp [h])]

/-- Soundness of _process_docs under the external contracts instantiated
at the batch: every present doc resolves in the cache to a same-identity
value, parse_responses is 1:1 and identity-preserving on the non-cached
sub-batch, and with save_io the prompt and response sequences cover the
misses. -/
theorem processDocs_sound (name : String) (task : LLMTaskModel)
    (backend : List String → List String) (save_io : Bool)
    (cache : Cache) (docs : List Doc)
    (hhit : ∀ d ∈ docs, cache.contains d = true → (cache.get d).map Doc.docId = some d.docId)
    (hparse : (modifiedOf task backend cache docs).map Doc.docId
      = (noncachedBatch cache docs).map Doc.docId)
    (hsp : save_io = true →
      (noncachedBatch cache docs).length ≤ (promptsOf task cache docs).length ∧
      (noncachedBatch cache docs).length ≤ (responsesOf task backend cache docs).length) :
    ∃ finals cache2 adds,
      processDocs name task backend save_io cache docs =
        some (finals, cache2, adds, traceOf task backend cache docs) ∧
      finals.map Doc.docId = docs.map Doc.docId ∧
      adds = annotateMisses save_io name (modifiedOf task backend cache docs)
        (promptsOf task cache docs) (responsesOf task backend cache docs) ∧
      missSlots (docs.map (fun d => cache.contains d)) finals = adds ∧
      cache2 = threadCache cache adds ∧
      (∀ i d, docs.get? i = some d → cache.contains d = true →
        (threadCache cache
            (adds.take (cntMissBefore (docs.zip (docs.map (fun x => cache.contains x))) i))).get d
          = finals.get? i) := by
  have hpairs : ∀ p ∈ docs.zip (docs.map (fun d => cache.contains d)), p.2 = true →
      ∃ d2, cache.get p.1 = some d2 ∧ d2.docId = p.1.docId := by
    intro p hp h2
    have hz := zipMap_mem hp
    have hm := hhit p.1 hz.1 (by rw [hz.2] at h2; exact h2)
    cases hg : cache.get p.1 with
    | none => rw [hg] at hm; cases hm
    | some d2 =>
      rw [hg] at hm
      exact ⟨d2, rfl, by simpa using hm⟩
  have hmiss_pairs : missesOf (docs.zip (docs.map (fun d => cache.contains d)))
      = noncachedBatch cache docs := rfl
  cases hvm : (noncachedBatch cache docs).isEmpty with
  | true =>
    have hnc : noncachedBatch cache docs = [] := by simpa using hvm
    have hmodnil : modifiedOf task backend cache docs = [] := by
      have h2 : (modifiedOf task backend cache docs).map Doc.docId = [] := by
        rw [hparse, hnc]
        rfl
      simpa using h2
    obtain ⟨finals, cache2, adds, hrun, hids, hadds, hslots, hc2, hhits⟩ :=
      processLoop_sound name save_io (docs.zip (docs.map (fun d => cache.contains d)))
        cache [] [] [] hpairs (by rw [hmiss_pairs, hnc]) (by rw [hmiss_pairs, hnc]; simp)
    have haddsnil : adds = [] := by simpa [annotateMisses] using hadds
    refine ⟨finals, cache2, adds, ?_, ?_, ?_, ?_, hc2, ?_⟩
    · rw [processDocs_eq_empty name task backend save_io cache docs hvm, hrun]
    · rw [hids, map_fst_docId_zipMap]
    · rw [haddsnil, hmodnil]
      simp [annotateMisses]
    · rw [map_snd_zipMap docs (fun d => cache.contains d)] at hslots
      exact hslots
    · intro i d hd hcont
      have hp : (docs.zip (docs.map (fun x => cache.contains x))).get? i
          = some (d, cache.contains d) := by
        rw [zipMap_get?, hd]
        rfl
      have h3 := hhits i (d, cache.contains d) hp (by simpa using hcont)
      simpa using h3
  | false =>
    obtain ⟨finals, cache2, adds, hrun, hids, hadds, hslots, hc2, hhits⟩ :=
      processLoop_sound name save_io (docs.zip (docs.map (fun d => cache.contains d)))
        cache (modifiedOf task backend cache docs) (promptsOf task cache docs)
        (responsesOf task backend cache docs)
        hpairs (by rw [hmiss_pairs]; exact hparse) (by rw [hmiss_pairs]; exact hsp)
    refine ⟨finals, cache2, adds, ?_, ?_, hadds, ?_, hc2, ?_⟩
    · rw [processDocs_eq_nonempty name task backend save_io cache docs hvm, hrun]
    · rw [hids, map_fst_docId_zipMap]
    · rw [map_snd_zipMap docs (fun d => cache.contains d)] at hslots
      exact hslots
    · intro i d hd hcont
      have hp : (docs.zip (docs.map (fun x => cache.contains x))).get? i
          = some (d, cache.contains d) := by
        rw [zipMap_get?, hd]
        rfl
      have h3 := hhits i (d, cache.contains d) hp (by simpa using hcont)
      simpa using h3

theorem mem_zipMap_of_mem {α β : Type} {docs : List α} {d : α} (f : α → β) (hd : d ∈ docs) :
    (d, f d) ∈ docs.zip (docs.map f) := by
  induction docs with
  | nil => simp at hd
  | cons a l ih =>
    rcases List.mem_cons.mp hd with rfl | hd
    · simp
    · exact List.mem_cons_of_mem _ (ih hd)

theorem mem_noncachedBatch {cache : Cache} {docs : List Doc} {d : Doc}
    (hd : d ∈ docs) (hc : cache.contains d = false) : d ∈ noncachedBatch cache docs := by
  unfold noncachedBatch missesOf
  exact List.mem_map.mpr ⟨(d, cache.contains d),
    List.mem_filter.mpr ⟨mem_zipMap_of_mem _ hd, by simp [hc]⟩, rfl⟩

/-- Failure propagation through _process_docs: if some doc is reported
present but its lookup yields nothing, the whole batch raises. -/
theorem processDocs_none (name : String) (task : LLMTaskModel)
    (backend : List String → List String) (save_io : Bool) (cache : Cache) (docs : List Doc)
    (hparse : ParseFaithful task backend cache docs)
    (hw : ∃ d ∈ docs, cache.contains d = true ∧ cache.get d = none) :
    processDocs name task backend save_io cache docs = none := by
  obtain ⟨d, hd, hcont, hget⟩ := hw
  have hwpairs : ∃ p ∈ docs.zip (docs.map (fun x => cache.contains x)),
      p.2 = true ∧ cache.get p.1 = none :=
    ⟨(d, cache.contains d), mem_zipMap_of_mem _ hd, by simpa using hcont, hget⟩
  have hdisj : ∀ m ∈ modifiedOf task backend cache docs,
      ∀ p ∈ docs.zip (docs.map (fun x => cache.contains x)),
      p.2 = true → m.docId ≠ p.1.docId := by
    intro m hm p hp hp2 heq
    have hmid : m.docId ∈ (noncachedBatch cache docs).map Doc.docId := by
      rw [← hparse]
      exact List.mem_map_of_mem _ hm
    obtain ⟨x, hx, hxid⟩ := List.mem_map.mp hmid
    have hxfalse : cache.contains x = false := noncachedBatch_contains x hx
    have hz := zipMap_mem hp
    have hptrue : cache.contains p.1 = true := by rw [← hz.2]; exact hp2
    have hfn : cache.contains_fn p.1.docId = true := hptrue
    rw [← heq, ← hxid] at hfn
    have hxtrue : cache.contains x = true := hfn
    rw [hxfalse] at hxtrue
    cases hxtrue
  cases hvm : (noncachedBatch cache docs).isEmpty with
  | true =>
    rw [processDocs_eq_empty name task backend save_io cache docs hvm]
    rw [processLoop_none name save_io _ cache [] [] [] hwpairs (by intro m hm; simp at hm)]
  | false =>
    rw [processDocs_eq_nonempty name task backend save_io cache docs hvm]
    rw [processLoop_none name save_io _ cache _ _ _ hwpairs hdisj]

/-- A successful _process_docs returns one output per input doc,
unconditionally. -/
theorem processDocs_length {name : String} {task : LLMTaskModel}
    {backend : List String → List String} {save_io : Bool} {cache : Cache} {docs : List Doc}
    {finals : List Doc} {cache2 : Cache} {adds : List Doc} {tr : Trace}
    (h : processDocs name task backend save_io cache docs = some (finals, cache2, adds, tr)) :
    finals.length = docs.length := by
  cases hvm : (noncachedBatch cache docs).isEmpty with
  | true =>
    rw [processDocs_eq_empty name task backend save_io cache docs hvm] at h
    cases hrun : processLoop name save_io (docs.zip (docs.map (fun d => cache.contains d)))
        cache [] [] [] with
    | none => rw [hrun] at h; cases h
    | some r =>
      obtain ⟨fs, c, adds2⟩ := r
      rw [hrun] at h
      cases h
      have h2 := processLoop_length hrun
      simpa [Nat.min_self] using h2
  | false =>
    rw [processDocs_eq_nonempty name task backend save_io cache docs hvm] at h
    cases hrun : processLoop name save_io (docs.zip (docs.map (fun d => cache.contains d)))
        cache (modifiedOf task backend cache docs) (promptsOf task cache docs)
        (responsesOf task backend cache docs) with
    | none => rw [hrun] at h; cases h
    | some r =>
      obtain ⟨fs, c, adds2⟩ := r
      rw [hrun] at h
      cases h
      have h2 := processLoop_length hrun
      simpa [Nat.min_self] using h2

/-- A fully warm batch: when every doc is a member and resolves with its
own identity, _process_docs succeeds with no task or backend call, no
add, and an unchanged cache. -/
theorem processDocs_warm (name : String) (task : LLMTaskModel)
    (backend : List String → List String) (save_io : Bool) (cache : Cache) (docs : List Doc)
    (hall : ∀ d ∈ docs, cache.contains d = true)
    (hget : ∀ d ∈ docs, ∃ d2, cache.get d = some d2 ∧ d2.docId = d.docId) :
    ∃ finals2, processDocs name task backend save_io cache docs =
      some (finals2, cache, [], ⟨[], [], []⟩) := by
  have hnc : noncachedBatch cache docs = [] := noncachedBatch_eq_nil hall
  have hvm : (noncachedBatch cache docs).isEmpty = true := by rw [hnc]; rfl
  have hmiss_pairs : missesOf (docs.zip (docs.map (fun d => cache.contains d)))
      = noncachedBatch cache docs := rfl
  have hpairs : ∀ p ∈ docs.zip (docs.map (fun d => cache.contains d)), p.2 = true →
      ∃ d2, cache.get p.1 = some d2 ∧ d2.docId = p.1.docId := by
    intro p hp _
    exact hget p.1 (zipMap_mem hp).1
  obtain ⟨finals, cache2, adds, hrun, hids, hadds, hslots, hc2, hhits⟩ :=
    processLoop_sound name save_io (docs.zip (docs.map (fun d => cache.contains d)))
      cache [] [] [] hpairs (by rw [hmiss_pairs, hnc]) (by rw [hmiss_pairs, hnc]; simp)
  have haddsnil : adds = [] := by simpa [annotateMisses] using hadds
  refine ⟨finals, ?_⟩
  rw [processDocs_eq_empty name task backend save_io cache docs hvm, hrun, haddsnil, hc2,
    haddsnil, threadCache_nil]
  simp [traceOf, hnc]

/-- Attaching capture records preserves identities, as long as the saved
prompt and response streams cover the parsed docs. -/
theorem annotateMisses_map_docId (save_io : Bool) (name : String) :
    ∀ (modified : List Doc) (sp sr : List String),
    (save_io = true → modified.length ≤ sp.length ∧ modified.length ≤ sr.length) →
    (annotateMisses save_io name modified sp sr).map Doc.docId = modified.map Doc.docId := by
  intro modified
  cases save_io with
  | false => intro sp sr _; rfl
  | true =>
    induction modified with
    | nil => intro sp sr _; rfl
    | cons m ms ih =>
      intro sp sr hlen
      obtain ⟨h1, h2⟩ := hlen rfl
      cases sp with
      | nil => simp at h1
      | cons p sp2 =>
        cases sr with
        | nil => simp at h2
        | cons r sr2 =>
          have := ih sp2 sr2 (fun _ => ⟨by simpa using h1, by simpa using h2⟩)
          simpa [annotateMisses, setLlmIoEntry_docId] using this

theorem zipWith_get? {α β γ : Type} (f : α → β → γ) :
    ∀ (l1 : List α) (l2 : List β) (k : Nat),
    (List.zipWith f l1 l2).get? k =
      match l1.get? k, l2.get? k with
      | some a, some b => some (f a b)
      | _, _ => none := by
  intro l1
  induction l1 with
  | nil => intro l2 k; simp
  | cons a l1 ih =>
    intro l2 k
    cases l2 with
    | nil => simp
    | cons b l2 =>
      cases k with
      | zero => simp
      | succ j => simpa using ih l2 j

theorem zip_get? {α β : Type} (l1 : List α) (l2 : List β) (k : Nat) :
    (l1.zip l2).get? k =
      match l1.get? k, l2.get? k with
      | some a, some b => some (a, b)
      | _, _ => none :=
  zipWith_get? Prod.mk l1 l2 k

theorem lookup_setLlmIoEntry (d : Doc) (name : String) (r : ExchangeRecord) :
    ((setLlmIoEntry d name r).llm_io.getD []).lookup name = some r := by
  simp [setLlmIoEntry, List.lookup]

theorem count_setLlmIoEntry (d : Doc) (name : String) (r : ExchangeRecord) :
    (((setLlmIoEntry d name r).llm_io.getD []).filter (fun kv => kv.1 == name)).length = 1 := by
  simp only [setLlmIoEntry, Option.getD_some]
  rw [List.filter_cons_of_pos (by simp)]
  have hnil : (((d.llm_io.getD []).filter (fun kv => kv.1 != name)).filter
      (fun kv => kv.1 == name)) = [] := by
    rw [List.filter_eq_nil_iff]
    intro kv hkv
    have h2 := List.of_mem_filter hkv
    simp only [bne_iff_ne, ne_eq, decide_not] at h2
    simp only [beq_iff_eq]
    intro hc
    rw [hc] at h2
    simp at h2
  rw [hnil]
  rfl

theorem minibatch_nil (size : Nat) : minibatch size [] = [] := by
  rw [minibatch]
  simp

theorem minibatch_ne_nil {size : Nat} {xs : List Doc}
    (hs : size ≠ 0) (hx : xs ≠ []) : minibatch size xs ≠ [] := by
  rw [minibatch]
  simp [hs, hx]

theorem minibatch_flatten (size : Nat) (hs : size ≠ 0) :
    ∀ (n : Nat) (xs : List Doc), xs.length ≤ n → (minibatch size xs).flatten = xs := by
  intro n
  induction n with
  | zero =>
    intro xs h
    have hx : xs = [] := List.length_eq_zero.mp (Nat.le_zero.mp h)
    subst hx
    rw [minibatch_nil]
    rfl
  | succ n ih =>
    intro xs h
    rw [minibatch]
    by_cases hx : xs = []
    · simp [hx]
    · rw [dif_neg (by simp [hs, hx])]
      have hlen : (xs.drop size).length ≤ n := by
        rw [List.length_drop]
        have h1 : 1 ≤ size := Nat.one_le_iff_ne_zero.mpr hs
        have h2 : 1 ≤ xs.length := by
          cases xs with
          | nil => exact absurd rfl hx
          | cons a l => simp
        omega
      rw [List.flatten_cons, ih (xs.drop size) hlen, List.take_append_drop]

theorem minibatch_mem_facts (size : Nat) (hs : size ≠ 0) :
    ∀ (n : Nat) (xs : List Doc), xs.length ≤ n →
    ∀ b ∈ minibatch size xs, b ≠ [] ∧ b.length ≤ size := by
  intro n
  induction n with
  | zero =>
    intro xs h b hb
    have hx : xs = [] := List.length_eq_zero.mp (Nat.le_zero.mp h)
    subst hx
    rw [minibatch_nil] at hb
    simp at hb
  | succ n ih =>
    intro xs h b hb
    rw [minibatch] at hb
    by_cases hx : xs = []
    · simp [hx] at hb
    · rw [dif_neg (by simp [hs, hx])] at hb
      rcases List.mem_cons.mp hb with rfl | hb
      · constructor
        · simp [List.take_eq_nil_iff, hs, hx]
        · simpa using Nat.min_le_left size xs.length
      · have hlen : (xs.drop size).length ≤ n := by
          rw [List.length_drop]
          have h1 : 1 ≤ size := Nat.one_le_iff_ne_zero.mpr hs
          have h2 : 1 ≤ xs.length := by
            cases xs with
            | nil => exact absurd rfl hx
            | cons a l => simp
          omega
        exact ih (xs.drop size) hlen b hb

theorem minibatch_full (size : Nat) (hs : size ≠ 0) :
    ∀ (n : Nat) (xs : List Doc), xs.length ≤ n →
    ∀ i b, (minibatch size xs).get? i = some b →
      i + 1 < (minibatch size xs).length → b.length = size := by
  intro n
  induction n with
  | zero =>
    intro xs h i b hb hlt
    have hx : xs = [] := List.length_eq_zero.mp (Nat.le_zero.mp h)
    subst hx
    rw [minibatch_nil] at hb
    simp at hb
  | succ n ih =>
    intro xs h i b hb hlt
    by_cases hx : xs = []
    · subst hx
      rw [minibatch_nil] at hb
      simp at hb
    · rw [minibatch] at hb hlt
      rw [dif_neg (by simp [hs, hx])] at hb hlt
      have hdlen : (xs.drop size).length ≤ n := by
        rw [List.length_drop]
        have h1 : 1 ≤ size := Nat.one_le_iff_ne_zero.mpr hs
        have h2 : 1 ≤ xs.length := by
          cases xs with
          | nil => exact absurd rfl hx
          | cons a l => simp
        omega
      cases i with
      | zero =>
        simp only [List.get?] at hb
        cases hb
        have hmb : minibatch size (xs.drop size) ≠ [] := by
          intro hc
          rw [hc] at hlt
          simp at hlt
        have hdrop : xs.drop size ≠ [] := by
          intro hc
          rw [hc, minibatch_nil] at hmb
          exact hmb rfl
        have hgt : size < xs.length := by
          by_contra hle
          push_neg at hle
          exact hdrop (List.drop_eq_nil_of_le hle)
        simp [List.length_take]
        omega
      | succ j =>
        simp only [List.get?] at hb
        have hlt2 : j + 1 < (minibatch size (xs.drop size)).length := by
          simpa using hlt
        exact ih (xs.drop size) hdlen j b hb hlt2

theorem pipeBatches_nil (name : String) (task : LLMTaskModel)
    (backend : List String → List String) (save_io : Bool)
    (handler : String → List Doc → HandlerAction) (cache : Cache) :
    pipeBatches name task backend save_io handler [] cache = ([], cache, [], false) := rfl

theorem pipeBatches_cons (name : String) (task : LLMTaskModel)
    (backend : List String → List String) (save_io : Bool)
    (handler : String → List Doc → HandlerAction) (b : List Doc)
    (bs : List (List Doc)) (cache : Cache) :
    pipeBatches name task backend save_io handler (b :: bs) cache =
      match processDocs name task backend save_io cache b with
      | some (fs, c, _, _) =>
        let rest := pipeBatches name task backend save_io handler bs c
        (fs ++ rest.1, rest.2.1, rest.2.2.1, rest.2.2.2)
      | none =>
        match handler name b with
        | HandlerAction.suppress =>
          let rest := pipeBatches name task backend save_io handler bs cache
          (rest.1, rest.2.1, (name, b) :: rest.2.2.1, rest.2.2.2)
        | HandlerAction.reraise => ([], cache, [(name, b)], true) := by
  simp only [pipeBatches]

/-- Running the batch loop with a handler that always suppresses: the
outputs are the successful batches' outputs concatenated in order, and
the handler is invoked once per failing batch, with the component name
and the failing batch, in order. -/
theorem pipeBatches_suppress (name : String) (task : LLMTaskModel)
    (backend : List String → List String) (save_io : Bool) :
    ∀ (bs : List (List Doc)) (cache : Cache),
    ∃ outsPer cacheF,
      BatchRun name task backend save_io cache bs outsPer cacheF ∧
      pipeBatches name task backend save_io (fun _ _ => HandlerAction.suppress) bs cache =
        ((outsPer.filterMap id).flatten, cacheF,
          ((bs.zip outsPer).filter (fun p => p.2.isNone)).map (fun p => (name, p.1)), false) := by
  intro bs
  induction bs with
  | nil =>
    intro cache
    exact ⟨[], cache, BatchRun.nil cache, rfl⟩
  | cons b bs ih =>
    intro cache
    cases hrun : processDocs name task backend save_io cache b with
    | some r =>
      obtain ⟨fs, cache2, adds, tr⟩ := r
      obtain ⟨outsPer, cacheF, hchain, heq⟩ := ih cache2
      refine ⟨some fs :: outsPer, cacheF,
        BatchRun.ok cache b fs cache2 adds tr bs outsPer cacheF hrun hchain, ?_⟩
      rw [pipeBatches_cons, hrun]
      simp only [heq]
      simp
    | none =>
      obtain ⟨outsPer, cacheF, hchain, heq⟩ := ih cache
      refine ⟨none :: outsPer, cacheF,
        BatchRun.fail cache b bs outsPer cacheF hrun hchain, ?_⟩
      rw [pipeBatches_cons, hrun]
      simp only [heq]
      simp

/-- C1: for every batch processed by _process_docs (and hence by __call__
and by pipe on a successful batch), with any subset of the docs present
in the cache, the returned list has exactly the same length as the input
list, and the i-th output doc corresponds to the i-th input doc's
identity (the cached value for a hit, the annotated result for a miss),
in original order.  The external contracts (cache agreement, 1:1
identity-preserving parsing, covering prompt/response streams) are
hypotheses instantiated at the batch. -/
theorem C1_order_preservation (name : String) (task : LLMTaskModel)
    (backend : List String → List String) (save_io : Bool) (cache : Cache) (docs : List Doc)
    (h1 : CacheAgrees cache docs) (h2 : ParseFaithful task backend cache docs)
    (h3 : save_io = true → StreamsCover task backend cache docs) :
    C1Holds name task backend save_io cache docs := by
  obtain ⟨finals, cache2, adds, hrun, hids, _, _, _, _⟩ :=
    processDocs_sound name task backend save_io cache docs h1 h2 h3
  refine ⟨finals, cache2, adds, traceOf task backend cache docs, hrun, ?_, hids⟩
  have hlen := congrArg List.length hids
  simpa using hlen

/-- Closed witness for C1: a two-doc batch over a cache holding exactly
the first doc. -/
theorem C1_witness :
    CacheAgrees wCache0 [wDoc 0, wDoc 1] ∧
    ParseFaithful wTask wBackend wCache0 [wDoc 0, wDoc 1] ∧
    ((false : Bool) = true → StreamsCover wTask wBackend wCache0 [wDoc 0, wDoc 1]) ∧
    C1Holds "llm" wTask wBackend false wCache0 [wDoc 0, wDoc 1] :=
  ⟨by decide, by decide, by decide,
    C1_order_preservation "llm" wTask wBackend false wCache0 [wDoc 0, wDoc 1]
      (by decide) (by decide) (by decide)⟩

/-- C2: each doc the cache reports absent is sent exactly once through
task.generate_prompts, the backend and task.parse_responses (the trace
holds exactly one call each, on the non-cached sub-batch, and none at all
when there is no miss), and its annotated result is written to the cache
via add; docs reported present are served without any task or backend
call.  Afterwards every batch doc is a member, and re-running the same
batch over the now-warm cache performs no call, adds nothing and leaves
the cache unchanged. -/
theorem C2_exactly_once (name : String) (task : LLMTaskModel)
    (backend : List String → List String) (save_io : Bool) (cache : Cache) (docs : List Doc)
    (h1 : CacheAgrees cache docs) (h2 : ParseFaithful task backend cache docs)
    (h3 : save_io = true → StreamsCover task backend cache docs) :
    C2Holds name task backend save_io cache docs := by
  obtain ⟨finals, cache2, adds, hrun, hids, hadds, hslots, hc2, hhits⟩ :=
    processDocs_sound name task backend save_io cache docs h1 h2 h3
  have hmodlen : (modifiedOf task backend cache docs).length
      = (noncachedBatch cache docs).length := by
    have h := congrArg List.length h2
    simpa using h
  have hcover : save_io = true →
      (modifiedOf task backend cache docs).length ≤ (promptsOf task cache docs).length ∧
      (modifiedOf task backend cache docs).length ≤ (responsesOf task backend cache docs).length := by
    intro hsio
    obtain ⟨ha, hb⟩ := h3 hsio
    exact ⟨by rw [hmodlen]; exact ha, by rw [hmodlen]; exact hb⟩
  have haddsids : adds.map Doc.docId = (noncachedBatch cache docs).map Doc.docId := by
    rw [hadds, annotateMisses_map_docId save_io name _ _ _ hcover]
    exact h2
  have hmem : ∀ d ∈ docs, cache2.contains d = true := by
    intro d hd
    rw [hc2]
    cases hcont : cache.contains d with
    | true => exact threadCache_contains_of_contains adds hcont
    | false =>
      apply threadCache_contains_of_mem
      have hdin : d ∈ noncachedBatch cache docs := mem_noncachedBatch hd hcont
      have hin : d.docId ∈ adds.map Doc.docId := by
        rw [haddsids]
        exact List.mem_map_of_mem _ hdin
      obtain ⟨a, ha, haid⟩ := List.mem_map.mp hin
      exact ⟨a, ha, haid⟩
  have hgets : ∀ d ∈ docs, ∃ d2, cache2.get d = some d2 ∧ d2.docId = d.docId := by
    intro d hd
    rw [hc2]
    apply threadCache_get_id
    cases hcont : cache.contains d with
    | true =>
      left
      have hm := h1 d hd hcont
      cases hg : cache.get d with
      | none => rw [hg] at hm; cases hm
      | some d2 => rw [hg] at hm; exact ⟨d2, rfl, by simpa using hm⟩
    | false =>
      right
      have hdin : d ∈ noncachedBatch cache docs := mem_noncachedBatch hd hcont
      have hin : d.docId ∈ adds.map Doc.docId := by
        rw [haddsids]
        exact List.mem_map_of_mem _ hdin
      obtain ⟨a, ha, haid⟩ := List.mem_map.mp hin
      exact ⟨a, ha, haid⟩
  obtain ⟨finals2, hwarm⟩ := processDocs_warm name task backend save_io cache2 docs hmem hgets
  exact ⟨finals, cache2, adds, hrun, hadds, haddsids, hslots, hc2, hmem, finals2, hwarm⟩

/-- Closed witness for C2: a two-doc batch with one hit and one miss. -/
theorem C2_witness :
    CacheAgrees wCache0 [wDoc 0, wDoc 1] ∧
    ParseFaithful wTask wBackend wCache0 [wDoc 0, wDoc 1] ∧
    ((false : Bool) = true → StreamsCover wTask wBackend wCache0 [wDoc 0, wDoc 1]) ∧
    C2Holds "llm" wTask wBackend false wCache0 [wDoc 0, wDoc 1] :=
  ⟨by decide, by decide, by decide,
    C2_exactly_once "llm" wTask wBackend false wCache0 [wDoc 0, wDoc 1]
      (by decide) (by decide) (by decide)⟩

/-- C4: a doc the membership test reports present whose subsequent lookup
yields nothing makes processing fail fatally (the not-None assertion),
never recovering it as a miss; and when contains agrees with get the
error branch is unreachable (the run succeeds). -/
theorem C4_internal_consistency (name : String) (task : LLMTaskModel)
    (backend : List String → List String) (save_io : Bool) (cache : Cache) (docs : List Doc)
    (h2 : ParseFaithful task backend cache docs)
    (h3 : save_io = true → StreamsCover task backend cache docs) :
    C4Holds name task backend save_io cache docs := by
  constructor
  · intro hw
    exact processDocs_none name task backend save_io cache docs h2 hw
  · intro h1
    obtain ⟨finals, cache2, adds, hrun, _⟩ :=
      processDocs_sound name task backend save_io cache docs h1 h2 h3
    rw [hrun]
    rfl

/-- Closed witness for C4: a cache claiming membership of identity 0 but
resolving nothing, on the one-doc batch. -/
theorem C4_witness :
    ParseFaithful wTask wBackend wCacheBad [wDoc 0] ∧
    ((false : Bool) = true → StreamsCover wTask wBackend wCacheBad [wDoc 0]) ∧
    C4Holds "llm" wTask wBackend false wCacheBad [wDoc 0] :=
  ⟨by decide, by decide,
    C4_internal_consistency "llm" wTask wBackend false wCacheBad [wDoc 0]
      (by decide) (by decide)⟩

/-- C5: pipe splits the stream into consecutive batches of batch_size
(final batch possibly shorter); a failing batch triggers exactly one
handler invocation carrying the component name and the failing batch and
contributes zero output docs; with a suppressing handler all docs of
every successfully processed batch appear in the output, in order,
undisturbed. -/
theorem C5_batch_isolation (name : String) (task : LLMTaskModel)
    (backend : List String → List String) (save_io : Bool) (cache : Cache)
    (stream : List Doc) (batch_size : Nat) (hbs : batch_size ≠ 0) :
    C5Holds name task backend save_io cache stream batch_size := by
  refine ⟨minibatch_flatten batch_size hbs stream.length stream le_rfl,
    fun b hb => minibatch_mem_facts batch_size hbs stream.length stream le_rfl b hb,
    fun i b hb hlt => minibatch_full batch_size hbs stream.length stream le_rfl i b hb hlt, ?_⟩
  obtain ⟨outsPer, cacheF, hchain, heq⟩ :=
    pipeBatches_suppress name task backend save_io (minibatch batch_size stream) cache
  exact ⟨outsPer, cacheF, hchain, heq⟩

/-- Closed witness for C5: a five-doc stream with batch size two (three
batches, the last shorter). -/
theorem C5_witness :
    (2 : Nat) ≠ 0 ∧
    C5Holds "llm" wTask wBackend false wEmptyCache
      [wDoc 0, wDoc 1, wDoc 2, wDoc 3, wDoc 4] 2 :=
  ⟨by decide,
    C5_batch_isolation "llm" wTask wBackend false wEmptyCache
      [wDoc 0, wDoc 1, wDoc 2, wDoc 3, wDoc 4] 2 (by decide)⟩

/-- C8: a single-item call propagates any exception directly (it fails
exactly when processing the one-item batch fails, with no handler in
between) and on success returns the single element of processing the
one-item batch. -/
theorem C8_call_direct (name : String) (task : LLMTaskModel)
    (backend : List String → List String) (save_io : Bool) (cache : Cache) (doc : Doc) :
    C8Holds name task backend save_io cache doc := by
  constructor
  · constructor
    · intro hc
      cases hrun : processDocs name task backend save_io cache [doc] with
      | none => rfl
      | some r =>
        obtain ⟨fs, c2, adds, tr⟩ := r
        have hlen := processDocs_length hrun
        obtain ⟨d2, hd2⟩ := List.length_eq_one.mp (by simpa using hlen)
        simp only [llmCall] at hc
        rw [hrun, hd2] at hc
        cases hc
    · intro hp
      simp only [llmCall]
      rw [hp]
  · intro fs cache2 adds tr hrun
    have hlen := processDocs_length hrun
    obtain ⟨d2, hd2⟩ := List.length_eq_one.mp (by simpa using hlen)
    subst hd2
    refine ⟨d2, rfl, ?_⟩
    simp only [llmCall]
    rw [hrun]
    rfl

/-- Closed witness for C8 at a fresh doc over the empty cache. -/
theorem C8_witness : C8Holds "llm" wTask wBackend false wEmptyCache (wDoc 3) :=
  C8_call_direct "llm" wTask wBackend false wEmptyCache (wDoc 3)

/-- C9: score returns exactly task.scorer examples when the task exposes
the scoring capability and the empty mapping, without raising,
otherwise. -/
theorem C9_score_dispatch (scorer : Option (List (Doc × Doc) → Scores))
    (examples : List (Doc × Doc)) :
    C9Holds scorer examples := by
  constructor
  · intro f hf
    subst hf
    rfl
  · intro hf
    subst hf
    rfl

/-- Closed witness for C9 with a concrete scorer. -/
theorem C9_witness : C9Holds (some (fun _ => [("acc", 1)])) [(wDoc 0, wDoc 1)] :=
  C9_score_dispatch (some (fun _ => [("acc", 1)])) [(wDoc 0, wDoc 1)]

/-- C10: with save_io disabled, _process_docs never creates or modifies
an llm_io capture entry: the miss outputs (and the docs added to the
cache) are exactly the parse outputs, untouched, the hit outputs come
from cache lookups, and the only effects are the task annotations on miss
docs and the cache insertions. -/
theorem C10_no_capture_when_disabled (name : String) (task : LLMTaskModel)
    (backend : List String → List String) (cache : Cache) (docs : List Doc)
    (h1 : CacheAgrees cache docs) (h2 : ParseFaithful task backend cache docs) :
    C10Holds name task backend cache docs := by
  obtain ⟨finals, cache2, adds, hrun, hids, hadds, hslots, hc2, hhits⟩ :=
    processDocs_sound name task backend false cache docs h1 h2 (by intro hc; cases hc)
  refine ⟨finals, cache2, adds, hrun, ?_, hslots, hc2, hhits⟩
  simpa [annotateMisses] using hadds

/-- Closed witness for C10: a two-doc batch with one hit and one miss,
capture disabled. -/
theorem C10_witness :
    CacheAgrees wCache0 [wDoc 0, wDoc 1] ∧
    ParseFaithful wTask wBackend wCache0 [wDoc 0, wDoc 1] ∧
    C10Holds "llm" wTask wBackend wCache0 [wDoc 0, wDoc 1] :=
  ⟨by decide, by decide,
    C10_no_capture_when_disabled "llm" wTask wBackend wCache0 [wDoc 0, wDoc 1]
      (by decide) (by decide)⟩

theorem annotateMisses_true (name : String) (m : List Doc) (sp sr : List String) :
    annotateMisses true name m sp sr =
      List.zipWith (fun m2 pr => setLlmIoEntry m2 name { prompt := pr.1, response := pr.2 })
        m (sp.zip sr) := by
  simp [annotateMisses]

/-- C3: with capture enabled, every non-cached doc of a processed batch
receives exactly one ExchangeRecord under the processing component's
name, and the record attached to the k-th miss contains exactly the k-th
prompt and the k-th response of the miss sub-sequence, consumed strictly
in order from the duplicated sequences, correctly paired even when hits
and misses interleave. -/
theorem C3_capture_pairing (name : String) (task : LLMTaskModel)
    (backend : List String → List String) (cache : Cache) (docs : List Doc)
    (h1 : CacheAgrees cache docs) (h2 : ParseFaithful task backend cache docs)
    (hglen : (promptsOf task cache docs).length = (noncachedBatch cache docs).length)
    (hblen : (responsesOf task backend cache docs).length = (promptsOf task cache docs).length) :
    C3Holds name task backend cache docs := by
  have h3 : (true : Bool) = true → StreamsCover task backend cache docs := by
    intro _
    constructor
    · rw [hglen]
    · rw [hblen, hglen]
  obtain ⟨finals, cache2, adds, hrun, hids, hadds, hslots, hc2, hhits⟩ :=
    processDocs_sound name task backend true cache docs h1 h2 h3
  have hmodlen : (modifiedOf task backend cache docs).length
      = (noncachedBatch cache docs).length := by
    have h := congrArg List.length h2
    simpa using h
  rw [annotateMisses_true] at hadds
  have haddslen : adds.length = (noncachedBatch cache docs).length := by
    rw [hadds, List.length_zipWith, List.length_zip, hmodlen, hblen, hglen]
    simp
  refine ⟨finals, cache2, adds, hrun, hslots, haddslen, ?_⟩
  intro k a hka
  have hk : k < adds.length := (List.get?_eq_some.mp hka).1
  have hknc : k < (noncachedBatch cache docs).length := by rw [← haddslen]; exact hk
  have hkm : k < (modifiedOf task backend cache docs).length := by rw [hmodlen]; exact hknc
  have hkp : k < (promptsOf task cache docs).length := by rw [hglen]; exact hknc
  have hkr : k < (responsesOf task backend cache docs).length := by rw [hblen, hglen]; exact hknc
  obtain ⟨m, hm⟩ : ∃ m, (noncachedBatch cache docs).get? k = some m := by
    cases hx : (noncachedBatch cache docs).get? k with
    | none => exact absurd (List.get?_eq_none.mp hx) (Nat.not_le.mpr hknc)
    | some m => exact ⟨m, rfl⟩
  obtain ⟨mk, hmk⟩ : ∃ mk, (modifiedOf task backend cache docs).get? k = some mk := by
    cases hx : (modifiedOf task backend cache docs).get? k with
    | none => exact absurd (List.get?_eq_none.mp hx) (Nat.not_le.mpr hkm)
    | some mk => exact ⟨mk, rfl⟩
  obtain ⟨p, hp⟩ : ∃ p, (promptsOf task cache docs).get? k = some p := by
    cases hx : (promptsOf task cache docs).get? k with
    | none => exact absurd (List.get?_eq_none.mp hx) (Nat.not_le.mpr hkp)
    | some p => exact ⟨p, rfl⟩
  obtain ⟨r, hr⟩ : ∃ r, (responsesOf task backend cache docs).get? k = some r := by
    cases hx : (responsesOf task backend cache docs).get? k with
    | none => exact absurd (List.get?_eq_none.mp hx) (Nat.not_le.mpr hkr)
    | some r => exact ⟨r, rfl⟩
  have hka2 := hka
  rw [hadds, zipWith_get?, hmk, zip_get?, hp, hr] at hka2
  have ha : some (setLlmIoEntry mk name { prompt := p, response := r }) = some a := hka2
  have ha2 : a = setLlmIoEntry mk name { prompt := p, response := r } :=
    (Option.some.inj ha).symm
  have hmid : mk.docId = m.docId := by
    have hcong := congrArg (fun l => l.get? k) h2
    simp only [List.get?_map, hmk, hm] at hcong
    exact Option.some.inj hcong
  subst ha2
  exact ⟨m, p, r, hm, hp, hr, by rw [setLlmIoEntry_docId]; exact hmid,
    lookup_setLlmIoEntry mk name _, count_setLlmIoEntry mk name _⟩

/-- Closed witness for C3: a three-doc batch with an interleaved hit,
capture enabled. -/
theorem C3_witness :
    CacheAgrees wCache0 [wDoc 1, wDoc 0, wDoc 2] ∧
    ParseFaithful wTask wBackend wCache0 [wDoc 1, wDoc 0, wDoc 2] ∧
    (promptsOf wTask wCache0 [wDoc 1, wDoc 0, wDoc 2]).length
      = (noncachedBatch wCache0 [wDoc 1, wDoc 0, wDoc 2]).length ∧
    (responsesOf wTask wBackend wCache0 [wDoc 1, wDoc 0, wDoc 2]).length
      = (promptsOf wTask wCache0 [wDoc 1, wDoc 0, wDoc 2]).length ∧
    C3Holds "llm" wTask wBackend wCache0 [wDoc 1, wDoc 0, wDoc 2] :=
  ⟨by decide, by decide, by decide, by decide,
    C3_capture_pairing "llm" wTask wBackend wCache0 [wDoc 1, wDoc 0, wDoc 2]
      (by decide) (by decide) (by decide) (by decide)⟩

/-- C6: for a wrapper whose task and backend both support the
serialization capability, to_bytes followed by from_bytes on a freshly
constructed instance with matching sub-component configuration reproduces
the sub-component states (likewise to_disk/from_disk); and excluding the
same field name on both producer and restorer skips exactly that named
segment symmetrically, a no-op that never raises.  The sub-component
round-trip contract (their own from_bytes of their own to_bytes restores
their state) is the hypothesis, instantiated at the given states. -/
theorem C6_serialization_roundtrip (w fresh : WrapperSer) (tEnc bEnc : String → String)
    (tDec bDec : String → String → String)
    (hTcap : w.task.serializable = true) (hBcap : w.backend.serializable = true)
    (hTmatch : fresh.task.serializable = w.task.serializable)
    (hBmatch : fresh.backend.serializable = w.backend.serializable)
    (hTrt : tDec (tEnc w.task.state) fresh.task.state = w.task.state)
    (hBrt : bDec (bEnc w.backend.state) fresh.backend.state = w.backend.state) :
    C6Holds w fresh tEnc bEnc tDec bDec := by
  obtain ⟨⟨wts, wtst⟩, ⟨wbs, wbst⟩⟩ := w
  obtain ⟨⟨fts, ftst⟩, ⟨fbs, fbst⟩⟩ := fresh
  simp only at hTcap hBcap hTmatch hBmatch hTrt hBrt
  subst hTcap hBcap hTmatch hBmatch
  refine ⟨?_, ?_, ?_⟩
  · simp [wrapperToBytes, wrapperFromBytes, List.lookup, hTrt, hBrt]
  · simp [wrapperToDisk, wrapperFromDisk, List.lookup, hTrt, hBrt]
  · intro e
    by_cases he1 : e = "task"
    · subst he1
      simp [wrapperToBytes, wrapperFromBytes, wrapperToDisk, wrapperFromDisk,
        List.lookup, hTrt, hBrt]
    · by_cases he2 : e = "backend"
      · subst he2
        simp [wrapperToBytes, wrapperFromBytes, wrapperToDisk, wrapperFromDisk,
          List.lookup, hTrt, hBrt]
      · simp [wrapperToBytes, wrapperFromBytes, wrapperToDisk, wrapperFromDisk,
          List.lookup, hTrt, hBrt, he1, he2, Ne.symm he1, Ne.symm he2]

/-- Closed witness for C6 with identity encodings. -/
theorem C6_witness :
    ((⟨⟨true, "TS"⟩, ⟨true, "BS"⟩⟩ : WrapperSer).task.serializable = true) ∧
    ((⟨⟨true, "TS"⟩, ⟨true, "BS"⟩⟩ : WrapperSer).backend.serializable = true) ∧
    C6Holds ⟨⟨true, "TS"⟩, ⟨true, "BS"⟩⟩ ⟨⟨true, "t0"⟩, ⟨true, "b0"⟩⟩
      id id (fun b _ => b) (fun b _ => b) :=
  ⟨by decide, by decide,
    C6_serialization_roundtrip ⟨⟨true, "TS"⟩, ⟨true, "BS"⟩⟩ ⟨⟨true, "t0"⟩, ⟨true, "b0"⟩⟩
      id id (fun b _ => b) (fun b _ => b) rfl rfl rfl rfl rfl rfl⟩

/-- C7: every serialization entry point carries a named segment for a
sub-component exactly when that sub-component supports the persistence
capability; a sub-component lacking it is silently omitted from the
produced artifact and left untouched by restoration, and none of this
raises. -/
theorem C7_capability_gating (w : WrapperSer) (tEnc bEnc : String → String)
    (tDec bDec : String → String → String) :
    C7Holds w tEnc bEnc tDec bDec := by
  obtain ⟨⟨ts, tst⟩, ⟨bs, bst⟩⟩ := w
  refine ⟨?_, ?_, ?_, ?_, ?_, ?_⟩
  · cases ts <;> cases bs <;> simp [wrapperToBytes, List.lookup]
  · cases ts <;> cases bs <;> simp [wrapperToBytes, List.lookup]
  · cases ts <;> cases bs <;> simp [wrapperToDisk, List.lookup]
  · cases ts <;> cases bs <;> simp [wrapperToDisk, List.lookup]
  · intro hts data exclude
    simp only at hts
    subst hts
    constructor
    · simp only [wrapperFromBytes]
      simp only [Bool.false_and, Bool.false_eq_true, if_false]
      split
      · split <;> rfl
      · rfl
    · simp only [wrapperFromDisk]
      simp only [Bool.false_and, Bool.false_eq_true, if_false]
      split
      · split <;> rfl
      · rfl
  · intro hbs data exclude
    simp only at hbs
    subst hbs
    constructor
    · simp only [wrapperFromBytes]
      split
      · split
        · exfalso
          rename_i hcond
          split at hcond <;> simp at hcond
        · split <;> rfl
      · split
        · exfalso
          rename_i hcond
          simp at hcond
        · rfl
    · simp only [wrapperFromDisk]
      split
      · split
        · exfalso
          rename_i hcond
          split at hcond <;> simp at hcond
        · split <;> rfl
      · split
        · exfalso
          rename_i hcond
          simp at hcond
        · rfl

/-- Closed witness for C7 with a non-serializable task and a serializable
backend. -/
theorem C7_witness :
    C7Holds ⟨⟨false, "TS"⟩, ⟨true, "BS"⟩⟩ id id (fun b _ => b) (fun b _ => b) :=
  C7_capability_gating ⟨⟨false, "TS"⟩, ⟨true, "BS"⟩⟩ id id (fun b _ => b) (fun b _ => b)

end SpacyLLM